import Mathlib

/-!
Shallow embedding of the `discrete_shocklets` package
(`utils.py`, `kernel_functions.py`, `weighting_functions.py`).

Modelling conventions:
* numpy float arrays are modelled as `List α` over a `LinearOrderedField`
  (instantiated at `ℚ` where every operation is rational, so that concrete
  instances can be decided, and at `ℝ` where the code uses transcendental
  operations: `x ** b` becomes `Real.rpow`, `np.exp` becomes `Real.exp`,
  `np.std` uses `Real.sqrt`, `np.log10` becomes `Real.logb 10`);
* python's builtin `min`/`max` over a nonempty array are `listMin`/`listMax`
  (they return 0 on the empty list, which no modelled call path reaches);
* in-place numpy slice assignment `res[i:] = v` / `res[:i] = v` is modelled
  functionally by `pySetFrom` / `pySetUpto`;
* elementwise `+` of equal-length arrays is `addArr` (`List.zipWith (+)`).
-/

namespace DiscreteShocklets

/-- Python `min(arr)` over a list (`0` on the empty list, unreached). -/
def listMin {α : Type} [LinearOrderedField α] : List α → α
  | [] => 0
  | a :: t => t.foldl min a

/-- Python `max(arr)` over a list (`0` on the empty list, unreached). -/
def listMax {α : Type} [LinearOrderedField α] : List α → α
  | [] => 0
  | a :: t => t.foldl max a

/-- numpy slice assignment `l[i:] = v`: keep the first `i` entries, overwrite
the rest with `v`. -/
def pySetFrom {α : Type} (l : List α) (i : ℕ) (v : α) : List α :=
  l.take i ++ List.replicate (l.length - i) v

/-- numpy slice assignment `l[:i] = v`: overwrite the first `i` entries with
`v`, keep the rest. -/
def pySetUpto {α : Type} (l : List α) (i : ℕ) (v : α) : List α :=
  List.replicate (min i l.length) v ++ l.drop i

/-- numpy elementwise addition of two arrays of equal length. -/
def addArr {α : Type} [LinearOrderedField α] (l1 l2 : List α) : List α :=
  List.zipWith (· + ·) l1 l2

/-- `utils.zero_norm`: `arr = 2 * (arr - min(arr)) / (max(arr) - min(arr)) - 1`
followed by `arr - np.sum(arr) / len(arr)`.  The code has no guard: a constant
input makes `max(arr) - min(arr) = 0` and numpy produces NaNs (our field model
uses the `x / 0 = 0` convention instead). -/
def zero_norm {α : Type} [LinearOrderedField α] (arr : List α) : List α :=
  let m := listMin arr
  let M := listMax arr
  let scaled := arr.map (fun v => 2 * (v - m) / (M - m) - 1)
  scaled.map (fun v => v - scaled.sum / (scaled.length : α))

/-- `kernel_functions.haar` before normalization:
`res = -1 * np.ones(L); res[len(res) // 2:] = 1`. -/
def haarRaw (α : Type) [LinearOrderedField α] (L : ℕ) : List α :=
  let res := List.replicate L (-1 : α)
  pySetFrom res (res.length / 2) 1

/-- `kernel_functions.haar L zn`. -/
def haar (α : Type) [LinearOrderedField α] (L : ℕ) (zn : Bool) : List α :=
  if zn then zero_norm (haarRaw α L) else haarRaw α L

/-- `np.linspace startpt endpt L` (evenly spaced samples, endpoint included;
the code always calls it with `L ≥ 2`). -/
noncomputable def linspace (s e : ℝ) (L : ℕ) : List ℝ :=
  (List.range L).map (fun (i : ℕ) => s + (i : ℝ) * (e - s) / ((L : ℝ) - 1))

/-- `kernel_functions.power_law_zero_cusp` before normalization:
`x = np.linspace(startpt, endpt, L); res = x ** (-b); res[:len(res) // 2] = 0`.
The float power is modelled by `Real.rpow`. -/
noncomputable def plzcRaw (L : ℕ) (b s e : ℝ) : List ℝ :=
  let res := (linspace s e L).map (fun v => v ^ (-b))
  pySetUpto res (res.length / 2) 0

/-- `kernel_functions.power_law_zero_cusp L b zn startpt endpt`. -/
noncomputable def power_law_zero_cusp (L : ℕ) (b : ℝ) (zn : Bool) (s e : ℝ) : List ℝ :=
  if zn then zero_norm (plzcRaw L b s e) else plzcRaw L b s e

/-- `kernel_functions.power_zero_cusp` before normalization:
`x = np.linspace(startpt, endpt, L); res = x ** b; res[len(res) // 2:] = 0`. -/
noncomputable def pzcRaw (L : ℕ) (b s e : ℝ) : List ℝ :=
  let res := (linspace s e L).map (fun v => v ^ b)
  pySetFrom res (res.length / 2) 0

/-- `kernel_functions.power_zero_cusp L b zn startpt endpt`. -/
noncomputable def power_zero_cusp (L : ℕ) (b : ℝ) (zn : Bool) (s e : ℝ) : List ℝ :=
  if zn then zero_norm (pzcRaw L b s e) else pzcRaw L b s e

/-- `kernel_functions.exp_zero_cusp` before normalization:
`x = np.linspace(startpt, endpt, L); res = np.exp(a * x); res[len(res) // 2:] = 0`. -/
noncomputable def ezcRaw (L : ℕ) (a s e : ℝ) : List ℝ :=
  let res := (linspace s e L).map (fun v => Real.exp (a * v))
  pySetFrom res (res.length / 2) 0

/-- `kernel_functions.exp_zero_cusp L a zn startpt endpt`. -/
noncomputable def exp_zero_cusp (L : ℕ) (a : ℝ) (zn : Bool) (s e : ℝ) : List ℝ :=
  if zn then zero_norm (ezcRaw L a s e) else ezcRaw L a s e

/-- `kernel_functions.power_law_cusp`: the half-cusp (with the same `zn`
passed through) plus its index-reversed copy, re-normalized when `zn`. -/
noncomputable def power_law_cusp (L : ℕ) (b : ℝ) (zn : Bool) (s e : ℝ) : List ℝ :=
  let res := addArr (power_law_zero_cusp L b zn s e)
    (power_law_zero_cusp L b zn s e).reverse
  if zn then zero_norm res else res

/-- `kernel_functions.power_cusp`: same composition built on `power_zero_cusp`. -/
noncomputable def power_cusp (L : ℕ) (b : ℝ) (zn : Bool) (s e : ℝ) : List ℝ :=
  let res := addArr (power_zero_cusp L b zn s e)
    (power_zero_cusp L b zn s e).reverse
  if zn then zero_norm res else res

/-- `kernel_functions.pitchfork`:
`power_zero_cusp(L, 2b, zn)[::-1] + power_cusp(L, b, zn) + power_zero_cusp(L, 2b, zn)`. -/
noncomputable def pitchfork (L : ℕ) (b : ℝ) (zn : Bool) (s e : ℝ) : List ℝ :=
  let res := addArr
    (addArr (power_zero_cusp L (2 * b) zn s e).reverse (power_cusp L b zn s e))
    (power_zero_cusp L (2 * b) zn s e)
  if zn then zero_norm res else res

/-- `kernel_functions.exp_cusp`: same composition built on `exp_zero_cusp`. -/
noncomputable def exp_cusp (L : ℕ) (a : ℝ) (zn : Bool) (s e : ℝ) : List ℝ :=
  let res := addArr (exp_zero_cusp L a zn s e)
    (exp_zero_cusp L a zn s e).reverse
  if zn then zero_norm res else res

/-- The fixed set of kernel shape families exported by `kernel_functions.py`. -/
inductive KernelFamily : Type
  | haar
  | power_law_zero_cusp
  | power_law_cusp
  | power_zero_cusp
  | power_cusp
  | pitchfork
  | exp_zero_cusp
  | exp_cusp

/-- The spec's `generate_kernel(family, L, param, zn, startpt, endpt)` dispatch
over the source's kernel functions (`haar` ignores the shape parameter). -/
noncomputable def generate_kernel (fam : KernelFamily) (L : ℕ) (p : ℝ)
    (zn : Bool) (s e : ℝ) : List ℝ :=
  match fam with
  | .haar => haar ℝ L zn
  | .power_law_zero_cusp => power_law_zero_cusp L p zn s e
  | .power_law_cusp => power_law_cusp L p zn s e
  | .power_zero_cusp => power_zero_cusp L p zn s e
  | .power_cusp => power_cusp L p zn s e
  | .pitchfork => pitchfork L p zn s e
  | .exp_zero_cusp => exp_zero_cusp L p zn s e
  | .exp_cusp => exp_cusp L p zn s e

/-- The arrays each family hands to `zero_norm` when evaluated with `zn=True`,
innermost call first (composed families normalize their half-shapes and then
re-normalize the superposition; `pitchfork` additionally goes through
`power_cusp`). -/
noncomputable def znInputs (fam : KernelFamily) (L : ℕ) (p s e : ℝ) : List (List ℝ) :=
  match fam with
  | .haar => [haarRaw ℝ L]
  | .power_law_zero_cusp => [plzcRaw L p s e]
  | .power_zero_cusp => [pzcRaw L p s e]
  | .exp_zero_cusp => [ezcRaw L p s e]
  | .power_law_cusp =>
      [plzcRaw L p s e,
        addArr (power_law_zero_cusp L p true s e)
          (power_law_zero_cusp L p true s e).reverse]
  | .power_cusp =>
      [pzcRaw L p s e,
        addArr (power_zero_cusp L p true s e)
          (power_zero_cusp L p true s e).reverse]
  | .exp_cusp =>
      [ezcRaw L p s e,
        addArr (exp_zero_cusp L p true s e)
          (exp_zero_cusp L p true s e).reverse]
  | .pitchfork =>
      [pzcRaw L (2 * p) s e, pzcRaw L p s e,
        addArr (power_zero_cusp L p true s e)
          (power_zero_cusp L p true s e).reverse,
        addArr
          (addArr (power_zero_cusp L (2 * p) true s e).reverse
            (power_cusp L p true s e))
          (power_zero_cusp L (2 * p) true s e)]

/-- `utils.diff`: backward difference `x[n] - x[n-1]`.  With `ghost`, a
synthetic copy of `sequence[0]` is prepended before differencing (the code
indexes `sequence[0]`, so the ghost branch assumes a nonempty input; `headD 0`
stands in for that access). -/
def diff {α : Type} [LinearOrderedField α] (sequence : List α) (ghost : Bool) : List α :=
  if !ghost then List.zipWith (fun a b => a - b) sequence.tail sequence
  else List.zipWith (fun a b => a - b) sequence (sequence.headD 0 :: sequence)

/-- `np.mean` of a 1-d array. -/
def mean {α : Type} [LinearOrderedField α] (l : List α) : α :=
  l.sum / (l.length : α)

/-- `np.std` of a 1-d array: the square root of the population variance. -/
noncomputable def std (l : List ℝ) : ℝ :=
  Real.sqrt (mean (l.map (fun v => (v - mean l) ^ 2)))

/-- `utils.normalize(arr, stats)`: returns only the z-scored array by default,
and the triple `(normed, mean, std)` only when `stats` is set. -/
noncomputable def normalize (arr : List ℝ) (stats : Bool) :
    List ℝ ⊕ (List ℝ × ℝ × ℝ) :=
  let m := mean arr
  let s := std arr
  let normed := arr.map (fun v => (v - m) / s)
  if stats then Sum.inr (normed, m, s) else Sum.inl normed

/-- `utils.renormalize(arr, mean, std)`: z-scores with the supplied statistics. -/
noncomputable def renormalize (arr : List ℝ) (m s : ℝ) : List ℝ :=
  arr.map (fun v => (v - m) / s)

/-- `utils.row_normalize`: per-row z-scoring of a 2-d array, returning the
scored rows together with the vectors of row means and row stds (the source
mutates its argument in place; the spec allows the value-semantics reading). -/
noncomputable def row_normalize (X : List (List ℝ)) :
    List (List ℝ) × List ℝ × List ℝ :=
  (X.map (fun r => r.map (fun v => (v - mean r) / std r)), X.map mean, X.map std)

/-- `utils.row_unnormalize`: row-wise `X[row] * stds[row] + means[row]`. -/
noncomputable def row_unnormalize (X : List (List ℝ)) (means stds : List ℝ) :
    List (List ℝ) :=
  List.zipWith (fun r ms => r.map (fun v => v * ms.2 + ms.1)) X (List.zip means stds)

/-- Insertion step of a stable descending sort on `(word, value)` pairs by
value, as python's `sorted(..., key=value, reverse=True)` produces. -/
def insertDescByVal (x : String × ℚ) : List (String × ℚ) → List (String × ℚ)
  | [] => [x]
  | y :: ys => if y.2 ≤ x.2 then x :: y :: ys else y :: insertDescByVal x ys

/-- `sorted(top, key=lambda t: t[1], reverse=True)`. -/
def sortDescByVal (l : List (String × ℚ)) : List (String × ℚ) :=
  l.foldr insertDescByVal []

/-- Insertion step of a stable ascending argsort of `vals`. -/
def argsortInsert (vals : List ℚ) (i : ℕ) : List ℕ → List ℕ
  | [] => [i]
  | j :: js =>
      if vals.getD i 0 < vals.getD j 0 then i :: j :: js
      else j :: argsortInsert vals i js

/-- A stable ascending argsort of `vals` (indices ordered by their value). -/
def argsortAsc (vals : List ℚ) : List ℕ :=
  (List.range vals.length).foldr (argsortInsert vals) []

/-- `np.argpartition(vals, kth)`: numpy normalizes a negative `kth` by adding
`len(vals)` and raises `ValueError` when the result is out of bounds (modelled
as `none`); otherwise it returns a permutation of the indices in which
position `kth` holds the index of the `kth`-smallest value, everything before
it smaller, everything after it at least as large.  numpy leaves the
permutation otherwise unspecified; the model instantiates it with a full
stable ascending argsort, which satisfies that contract for every `kth`. -/
def argpartition (vals : List ℚ) (kth : ℤ) : Option (List ℕ) :=
  let n : ℤ := (vals.length : ℤ)
  let kthN := if kth < 0 then kth + n else kth
  if 0 ≤ kthN ∧ kthN < n then some (argsortAsc vals) else none

/-- Python slice `l[s:]` with an integer (possibly negative) start. -/
def pyDropFrom {α : Type} (l : List α) (s : ℤ) : List α :=
  if 0 ≤ s then l.drop s.toNat else l.drop ((l.length : ℤ) + s).toNat

/-- `utils.top_k`: `inds = np.argpartition(indices, -k)[-k:]`, pair the
selected words with their values and sort descending by value.  The code never
checks `k` itself; the only failure comes from numpy's bounds check inside
`argpartition`. -/
def top_k (indices : List ℚ) (words : List String) (k : ℤ) :
    Option (List (String × ℚ)) :=
  (argpartition indices (-k)).map (fun perm =>
    let inds := pyDropFrom perm (-k)
    let top := inds.map (fun i => (words.getD i "", indices.getD i 0))
    sortDescByVal top)

/-- The type of entries of `weighting_functions.registered_weighting_functions`. -/
def WeightingFunction : Type := List ℝ → ℝ

/-- `weighting_functions.register_weighting_function`, with the module-level
registry made explicit as state: append the function and return it unchanged. -/
def register_weighting_function (wf : WeightingFunction)
    (registry : List WeightingFunction) :
    WeightingFunction × List WeightingFunction :=
  (wf, registry ++ [wf])

/-- `weighting_functions.max_change`. -/
noncomputable def max_change : WeightingFunction :=
  fun arr => listMax arr - listMin arr

/-- `np.diff` (first forward difference). -/
noncomputable def npdiff (l : List ℝ) : List ℝ :=
  List.zipWith (fun a b => a - b) l.tail l

/-- The shift `arr - np.min(arr) + 1` performed by `max_rel_change` when
`neg` is set. -/
noncomputable def mrcShift (arr : List ℝ) : List ℝ :=
  arr.map (fun v => v - listMin arr + 1)

/-- `weighting_functions.max_rel_change`: optionally shift, take `np.log10`,
difference, and return the spread of the differences. -/
noncomputable def max_rel_change (arr : List ℝ) (neg : Bool) : ℝ :=
  let arr2 := if neg then mrcShift arr else arr
  let logret := npdiff (arr2.map (fun v => Real.logb 10 v))
  listMax logret - listMin logret

section MinMaxLemmas

variable {α : Type} [LinearOrderedField α]

theorem foldl_min_le_init (t : List α) (a : α) : t.foldl min a ≤ a := by
  induction t generalizing a with
  | nil => exact le_refl a
  | cons x t ih =>
    calc (x :: t).foldl min a = t.foldl min (min a x) := rfl
    _ ≤ min a x := ih (min a x)
    _ ≤ a := min_le_left a x

theorem foldl_min_le_mem {t : List α} {x : α} (hx : x ∈ t) (a : α) :
    t.foldl min a ≤ x := by
  induction t generalizing a with
  | nil => cases hx
  | cons y t ih =>
    rcases List.mem_cons.mp hx with h | h
    · subst h
      calc (x :: t).foldl min a = t.foldl min (min a x) := rfl
      _ ≤ min a x := foldl_min_le_init t (min a x)
      _ ≤ x := min_le_right a x
    · exact ih h (min a y)

theorem le_foldl_max_init (t : List α) (a : α) : a ≤ t.foldl max a := by
  induction t generalizing a with
  | nil => exact le_refl a
  | cons x t ih =>
    calc a ≤ max a x := le_max_left a x
    _ ≤ t.foldl max (max a x) := ih (max a x)
    _ = (x :: t).foldl max a := rfl

theorem le_foldl_max_mem {t : List α} {x : α} (hx : x ∈ t) (a : α) :
    x ≤ t.foldl max a := by
  induction t generalizing a with
  | nil => cases hx
  | cons y t ih =>
    rcases List.mem_cons.mp hx with h | h
    · subst h
      calc x ≤ max a x := le_max_right a x
      _ ≤ t.foldl max (max a x) := le_foldl_max_init t (max a x)
      _ = (x :: t).foldl max a := rfl
    · exact ih h (max a y)

theorem foldl_min_mem (t : List α) (a : α) : t.foldl min a = a ∨ t.foldl min a ∈ t := by
  induction t generalizing a with
  | nil => exact Or.inl rfl
  | cons x t ih =>
    have h := ih (min a x)
    rcases h with h | h
    · rcases min_cases a x with ⟨hm, _⟩ | ⟨hm, _⟩
      · exact Or.inl (show t.foldl min (min a x) = a by rw [h, hm])
      · exact Or.inr (show t.foldl min (min a x) ∈ x :: t by
          rw [h, hm]; exact List.mem_cons_self x t)
    · exact Or.inr (List.mem_cons_of_mem x h)

theorem foldl_max_mem (t : List α) (a : α) : t.foldl max a = a ∨ t.foldl max a ∈ t := by
  induction t generalizing a with
  | nil => exact Or.inl rfl
  | cons x t ih =>
    have h := ih (max a x)
    rcases h with h | h
    · rcases max_cases a x with ⟨hm, _⟩ | ⟨hm, _⟩
      · exact Or.inl (show t.foldl max (max a x) = a by rw [h, hm])
      · exact Or.inr (show t.foldl max (max a x) ∈ x :: t by
          rw [h, hm]; exact List.mem_cons_self x t)
    · exact Or.inr (List.mem_cons_of_mem x h)

theorem listMin_le_mem {l : List α} {x : α} (hx : x ∈ l) : listMin l ≤ x := by
  cases l with
  | nil => cases hx
  | cons a t =>
    rcases List.mem_cons.mp hx with h | h
    · subst h; exact foldl_min_le_init t x
    · exact foldl_min_le_mem h a

theorem le_listMax_mem {l : List α} {x : α} (hx : x ∈ l) : x ≤ listMax l := by
  cases l with
  | nil => cases hx
  | cons a t =>
    rcases List.mem_cons.mp hx with h | h
    · subst h; exact le_foldl_max_init t x
    · exact le_foldl_max_mem h a

theorem listMin_mem {l : List α} (hl : l ≠ []) : listMin l ∈ l := by
  cases l with
  | nil => exact absurd rfl hl
  | cons a t =>
    rcases foldl_min_mem t a with h | h
    · have he : listMin (a :: t) = a := h
      rw [he]; exact List.mem_cons_self a t
    · exact List.mem_cons_of_mem a h

theorem listMax_mem {l : List α} (hl : l ≠ []) : listMax l ∈ l := by
  cases l with
  | nil => exact absurd rfl hl
  | cons a t =>
    rcases foldl_max_mem t a with h | h
    · have he : listMax (a :: t) = a := h
      rw [he]; exact List.mem_cons_self a t
    · exact List.mem_cons_of_mem a h

theorem listMin_eq_of {l : List α} {x : α} (hx : x ∈ l) (h : ∀ y ∈ l, x ≤ y) :
    listMin l = x :=
  le_antisymm (listMin_le_mem hx) (h _ (listMin_mem (List.ne_nil_of_mem hx)))

theorem listMax_eq_of {l : List α} {x : α} (hx : x ∈ l) (h : ∀ y ∈ l, y ≤ x) :
    listMax l = x :=
  le_antisymm (h _ (listMax_mem (List.ne_nil_of_mem hx))) (le_listMax_mem hx)

end MinMaxLemmas

section ZeroNormLemmas

variable {α : Type} [LinearOrderedField α]

theorem zero_norm_length (arr : List α) : (zero_norm arr).length = arr.length := by
  simp [zero_norm]

theorem sum_map_sub_const (l : List α) (c : α) :
    (l.map (fun v => v - c)).sum = l.sum - (l.length : α) * c := by
  induction l with
  | nil => simp
  | cons x t ih => simp [ih]; ring

theorem zero_norm_sum (arr : List α) (h : arr ≠ []) : (zero_norm arr).sum = 0 := by
  have hlen : ((arr.map (fun v =>
      2 * (v - listMin arr) / (listMax arr - listMin arr) - 1)).length : α) ≠ 0 := by
    rw [List.length_map]
    exact_mod_cast (List.length_pos.mpr h).ne'
  simp only [zero_norm]
  rw [sum_map_sub_const]
  rw [mul_div_cancel₀ _ hlen]
  ring

theorem sum_le_of_forall_le {l : List α} {hi : α} (h : ∀ x ∈ l, x ≤ hi) :
    l.sum ≤ (l.length : α) * hi := by
  induction l with
  | nil => simp
  | cons x t ih =>
    have hx := h x (List.mem_cons_self x t)
    have ht := ih (fun y hy => h y (List.mem_cons_of_mem x hy))
    simp only [List.sum_cons, List.length_cons]
    push_cast
    calc x + t.sum ≤ hi + (t.length : α) * hi := add_le_add hx ht
    _ = ((t.length : α) + 1) * hi := by ring

theorem le_sum_of_forall_le {l : List α} {lo : α} (h : ∀ x ∈ l, lo ≤ x) :
    (l.length : α) * lo ≤ l.sum := by
  induction l with
  | nil => simp
  | cons x t ih =>
    have hx := h x (List.mem_cons_self x t)
    have ht := ih (fun y hy => h y (List.mem_cons_of_mem x hy))
    simp only [List.sum_cons, List.length_cons]
    push_cast
    calc ((t.length : α) + 1) * lo = lo + (t.length : α) * lo := by ring
    _ ≤ x + t.sum := add_le_add hx ht

theorem scaled_mem_bounds {arr : List α} (hne : listMin arr ≠ listMax arr)
    {x : α} (hx : x ∈ arr) :
    -1 ≤ 2 * (x - listMin arr) / (listMax arr - listMin arr) - 1 ∧
      2 * (x - listMin arr) / (listMax arr - listMin arr) - 1 ≤ 1 := by
  have hmx : listMin arr ≤ x := listMin_le_mem hx
  have hxM : x ≤ listMax arr := le_listMax_mem hx
  have hlt : listMin arr < listMax arr := lt_of_le_of_ne (le_trans hmx hxM) hne
  have hpos : (0 : α) < listMax arr - listMin arr := sub_pos.mpr hlt
  constructor
  · have h1 : (0 : α) ≤ 2 * (x - listMin arr) / (listMax arr - listMin arr) := by
      apply div_nonneg _ (le_of_lt hpos)
      have : (0 : α) ≤ x - listMin arr := sub_nonneg.mpr hmx
      linarith
    linarith
  · have h2 : 2 * (x - listMin arr) / (listMax arr - listMin arr) ≤ 2 := by
      rw [div_le_iff₀ hpos]
      have : x - listMin arr ≤ listMax arr - listMin arr := by linarith
      linarith
    linarith

theorem zero_norm_mem_bounds {arr : List α} (hne : listMin arr ≠ listMax arr)
    {v : α} (hv : v ∈ zero_norm arr) : -2 ≤ v ∧ v ≤ 2 := by
  have harrne : arr ≠ [] := by
    intro h; rw [h] at hne; exact hne rfl
  simp only [zero_norm, List.mem_map] at hv
  obtain ⟨w, hw, hwv⟩ := hv
  obtain ⟨x, hx, hxw⟩ := hw
  have hbounds := scaled_mem_bounds hne hx
  rw [hxw] at hbounds
  set scaled := arr.map (fun v => 2 * (v - listMin arr) / (listMax arr - listMin arr) - 1)
    with hscaled
  have hall : ∀ y ∈ scaled, -1 ≤ y ∧ y ≤ 1 := by
    intro y hy
    rw [hscaled] at hy
    simp only [List.mem_map] at hy
    obtain ⟨z, hz, hzy⟩ := hy
    have := scaled_mem_bounds hne hz
    rw [hzy] at this
    exact this
  have hlenpos : (0 : α) < (scaled.length : α) := by
    rw [hscaled]
    simp only [List.length_map]
    exact_mod_cast List.length_pos.mpr harrne
  have hub : scaled.sum ≤ (scaled.length : α) * 1 :=
    sum_le_of_forall_le (fun y hy => (hall y hy).2)
  have hlb : (scaled.length : α) * (-1) ≤ scaled.sum :=
    le_sum_of_forall_le (fun y hy => (hall y hy).1)
  have hc1 : scaled.sum / (scaled.length : α) ≤ 1 := by
    rw [div_le_iff₀ hlenpos]; linarith
  have hc2 : -1 ≤ scaled.sum / (scaled.length : α) := by
    rw [le_div_iff₀ hlenpos]; linarith
  constructor
  · rw [← hwv]; linarith [hbounds.1]
  · rw [← hwv]; linarith [hbounds.2]

end ZeroNormLemmas

section KernelLengths

theorem pySetFrom_length {α : Type} (l : List α) (i : ℕ) (v : α) :
    (pySetFrom l i v).length = l.length := by
  simp [pySetFrom]
  omega

theorem pySetUpto_length {α : Type} (l : List α) (i : ℕ) (v : α) :
    (pySetUpto l i v).length = l.length := by
  simp [pySetUpto]
  omega

theorem addArr_length {α : Type} [LinearOrderedField α] (l1 l2 : List α) :
    (addArr l1 l2).length = min l1.length l2.length := by
  simp [addArr]

theorem linspace_length (s e : ℝ) (L : ℕ) : (linspace s e L).length = L := by
  simp only [linspace, List.length_map, List.length_range]

theorem haarRaw_length (α : Type) [LinearOrderedField α] (L : ℕ) :
    (haarRaw α L).length = L := by
  simp [haarRaw, pySetFrom_length]

theorem haar_length (α : Type) [LinearOrderedField α] (L : ℕ) (zn : Bool) :
    (haar α L zn).length = L := by
  cases zn <;> simp [haar, zero_norm_length, haarRaw_length]

theorem plzcRaw_length (L : ℕ) (b s e : ℝ) : (plzcRaw L b s e).length = L := by
  simp [plzcRaw, pySetUpto_length, linspace_length]

theorem power_law_zero_cusp_length (L : ℕ) (b : ℝ) (zn : Bool) (s e : ℝ) :
    (power_law_zero_cusp L b zn s e).length = L := by
  cases zn <;> simp [power_law_zero_cusp, zero_norm_length, plzcRaw_length]

theorem pzcRaw_length (L : ℕ) (b s e : ℝ) : (pzcRaw L b s e).length = L := by
  simp [pzcRaw, pySetFrom_length, linspace_length]

theorem power_zero_cusp_length (L : ℕ) (b : ℝ) (zn : Bool) (s e : ℝ) :
    (power_zero_cusp L b zn s e).length = L := by
  cases zn <;> simp [power_zero_cusp, zero_norm_length, pzcRaw_length]

theorem ezcRaw_length (L : ℕ) (a s e : ℝ) : (ezcRaw L a s e).length = L := by
  simp [ezcRaw, pySetFrom_length, linspace_length]

theorem exp_zero_cusp_length (L : ℕ) (a : ℝ) (zn : Bool) (s e : ℝ) :
    (exp_zero_cusp L a zn s e).length = L := by
  cases zn <;> simp [exp_zero_cusp, zero_norm_length, ezcRaw_length]

theorem power_law_cusp_length (L : ℕ) (b : ℝ) (zn : Bool) (s e : ℝ) :
    (power_law_cusp L b zn s e).length = L := by
  cases zn <;>
    simp [power_law_cusp, zero_norm_length, addArr_length, power_law_zero_cusp_length]

theorem power_cusp_length (L : ℕ) (b : ℝ) (zn : Bool) (s e : ℝ) :
    (power_cusp L b zn s e).length = L := by
  cases zn <;>
    simp [power_cusp, zero_norm_length, addArr_length, power_zero_cusp_length]

theorem pitchfork_length (L : ℕ) (b : ℝ) (zn : Bool) (s e : ℝ) :
    (pitchfork L b zn s e).length = L := by
  cases zn <;>
    simp [pitchfork, zero_norm_length, addArr_length, power_zero_cusp_length,
      power_cusp_length]

theorem exp_cusp_length (L : ℕ) (a : ℝ) (zn : Bool) (s e : ℝ) :
    (exp_cusp L a zn s e).length = L := by
  cases zn <;>
    simp [exp_cusp, zero_norm_length, addArr_length, exp_zero_cusp_length]

theorem generate_kernel_length (fam : KernelFamily) (L : ℕ) (p : ℝ)
    (zn : Bool) (s e : ℝ) : (generate_kernel fam L p zn s e).length = L := by
  cases fam <;>
    simp [generate_kernel, haar_length, power_law_zero_cusp_length,
      power_law_cusp_length, power_zero_cusp_length, power_cusp_length,
      pitchfork_length, exp_zero_cusp_length, exp_cusp_length]

end KernelLengths

section ElementwiseLemmas

theorem zipWith_getD {α : Type} [LinearOrderedField α] (f : α → α → α)
    (l1 l2 : List α) (n : ℕ) (h1 : n < l1.length) (h2 : n < l2.length) :
    (List.zipWith f l1 l2).getD n 0 = f (l1.getD n 0) (l2.getD n 0) := by
  induction l1 generalizing l2 n with
  | nil => simp at h1
  | cons x t ih =>
    cases l2 with
    | nil => simp at h2
    | cons y u =>
      cases n with
      | zero => rfl
      | succ n =>
        simp only [List.zipWith_cons_cons, List.getD_cons_succ]
        exact ih u n (by simpa using h1) (by simpa using h2)

end ElementwiseLemmas

/-- C2: the claim says `zero_norm` on a constant array fails with a
`DegenerateInput` error.  The source has no such guard (no error class exists
in the package): on `[1, 1, 1]` the scaling denominator `max(arr) - min(arr)`
is `0`, numpy emits a RuntimeWarning and returns an all-NaN array instead of
raising.  In the exact model, whose division is total with `x / 0 = 0`, the
call goes through and returns `[0, 0, 0]`. -/
theorem zero_norm_constant_divides_by_zero :
    listMax [(1 : ℚ), 1, 1] - listMin [(1 : ℚ), 1, 1] = 0 ∧
      zero_norm [(1 : ℚ), 1, 1] = [0, 0, 0] := by
  constructor
  · norm_num [listMax, listMin, List.foldl]
  · norm_num [zero_norm, listMax, listMin, List.foldl]

/-- C4: the claim says `top_k` fails with `InvalidParameter` whenever `k ≤ 0`
or `k > len(indices)`.  The code performs no check of its own: with `k = 0`
the slice `[-k:]` is the whole array, so `top_k` silently returns all entries
sorted descending, and with `k = -1` it returns all but one; only an
out-of-bounds partition index (`k = 4 > 3` here) aborts, via numpy's
`ValueError` (modelled as `none`). -/
theorem top_k_nonpositive_k_no_error :
    top_k [5, 1, 9] ["a", "b", "c"] 0 = some [("c", 9), ("a", 5), ("b", 1)] ∧
      top_k [5, 1, 9] ["a", "b", "c"] (-1) = some [("c", 9), ("a", 5)] ∧
      top_k [5, 1, 9] ["a", "b", "c"] 4 = none := by
  refine ⟨by decide, by decide, by decide⟩

/-- C7: `diff` with `ghost=True` keeps the input length and starts with `0`;
with `ghost=False` it has length `len - 1` and entry `n` equal to
`seq[n+1] - seq[n]`. -/
theorem diff_spec (s : List ℚ) (h : s ≠ []) :
    (diff s true).length = s.length ∧
      (diff s true).head? = some 0 ∧
      (diff s false).length = s.length - 1 ∧
      ∀ n, n + 1 < s.length →
        (diff s false).getD n 0 = s.getD (n + 1) 0 - s.getD n 0 := by
  obtain ⟨a, t, rfl⟩ := List.exists_cons_of_ne_nil h
  refine ⟨?_, ?_, ?_, ?_⟩
  · simp [diff]
  · simp [diff, List.headD]
  · simp [diff]
  · intro n hn
    have h1 : n < (a :: t).tail.length := by simpa using hn
    have h2 : n < (a :: t).length := by simp at hn ⊢; omega
    have hz := zipWith_getD (fun x y => x - y) (a :: t).tail (a :: t) n h1 h2
    have hd : diff (a :: t) false =
        List.zipWith (fun x y => x - y) (a :: t).tail (a :: t) := rfl
    rw [hd, hz]
    rfl

/-- Closed witness for `diff_spec` at the list `[3, 1, 4]`. -/
theorem diff_spec_witness :
    ([3, 1, 4] : List ℚ) ≠ [] ∧
      ((diff [(3 : ℚ), 1, 4] true).length = ([3, 1, 4] : List ℚ).length ∧
        (diff [(3 : ℚ), 1, 4] true).head? = some 0 ∧
        (diff [(3 : ℚ), 1, 4] false).length = ([3, 1, 4] : List ℚ).length - 1 ∧
        ∀ n, n + 1 < ([3, 1, 4] : List ℚ).length →
          (diff [(3 : ℚ), 1, 4] false).getD n 0 =
            ([3, 1, 4] : List ℚ).getD (n + 1) 0 - ([3, 1, 4] : List ℚ).getD n 0) :=
  ⟨by decide, diff_spec [3, 1, 4] (by decide)⟩

/-- C9: registration returns the very function it was given and its only
effect on the registry is to append that function at the end, leaving the
previous entries and their order untouched. -/
theorem register_weighting_function_spec (wf : WeightingFunction)
    (registry : List WeightingFunction) :
    (register_weighting_function wf registry).1 = wf ∧
      (register_weighting_function wf registry).2 = registry ++ [wf] ∧
      (register_weighting_function wf registry).2.take registry.length = registry ∧
      (register_weighting_function wf registry).2.length = registry.length + 1 := by
  refine ⟨rfl, rfl, ?_, by simp [register_weighting_function]⟩
  simp [register_weighting_function]

/-- C5: with the default `zn=True`, `power_law_cusp L b` is the outer
`zero_norm` of exactly `power_law_zero_cusp L b + reverse (power_law_zero_cusp
L b)`, and that superposition is a genuine elementwise sum at every index
`i < L`. -/
theorem power_law_cusp_sum_of_halves (L : ℕ) (b s e : ℝ) (hL : 2 ≤ L) :
    power_law_cusp L b true s e =
      zero_norm (addArr (power_law_zero_cusp L b true s e)
        (power_law_zero_cusp L b true s e).reverse) ∧
      ∀ i, i < L →
        (addArr (power_law_zero_cusp L b true s e)
          (power_law_zero_cusp L b true s e).reverse).getD i 0 =
        (power_law_zero_cusp L b true s e).getD i 0 +
          (power_law_zero_cusp L b true s e).reverse.getD i 0 := by
  refine ⟨rfl, ?_⟩
  intro i hi
  have h1 : i < (power_law_zero_cusp L b true s e).length := by
    rw [power_law_zero_cusp_length]; exact hi
  have h2 : i < (power_law_zero_cusp L b true s e).reverse.length := by
    rw [List.length_reverse, power_law_zero_cusp_length]; exact hi
  exact zipWith_getD (· + ·) _ _ i h1 h2

/-- Closed witness for `power_law_cusp_sum_of_halves` at `L = 2`, `b = 1`,
`startpt = 1`, `endpt = 4`. -/
theorem power_law_cusp_sum_of_halves_witness :
    2 ≤ 2 ∧
      (power_law_cusp 2 1 true 1 4 =
        zero_norm (addArr (power_law_zero_cusp 2 1 true 1 4)
          (power_law_zero_cusp 2 1 true 1 4).reverse) ∧
        ∀ i, i < 2 →
          (addArr (power_law_zero_cusp 2 1 true 1 4)
            (power_law_zero_cusp 2 1 true 1 4).reverse).getD i 0 =
          (power_law_zero_cusp 2 1 true 1 4).getD i 0 +
            (power_law_zero_cusp 2 1 true 1 4).reverse.getD i 0) :=
  ⟨by norm_num, power_law_cusp_sum_of_halves 2 1 1 4 (by norm_num)⟩

/-- C3 counterexample: the claim says `normalize(arr)` returns the triple
`(z, mean, std)`, but the source's `stats` flag defaults to `False`, and the
default call returns only the z-scored array: on `[0, 2]` it yields the bare
array `[-1, 1]` (the `Sum.inl` branch), not a triple. -/
theorem normalize_default_returns_bare_array :
    normalize [(0 : ℝ), 2] false = Sum.inl [-1, 1] := by
  have hmean : mean [(0 : ℝ), 2] = 1 := by
    norm_num [mean]
  have hstd : std [(0 : ℝ), 2] = 1 := by
    rw [std, hmean]
    norm_num [mean]
  simp only [normalize, hmean, hstd, Bool.false_eq_true, if_neg]
  norm_num

/-- C3 amended: `normalize(arr, stats=True)` returns the triple
`(z, mean, std)` whose first component is exactly the z-scoring of `arr` by
its own statistics — i.e. `renormalize` applied with the fitted `(mean, std)`
— and `renormalize` z-scores with exactly the externally supplied statistics. -/
theorem normalize_stats_renormalize_consistent (arr brr : List ℝ) (m s : ℝ) :
    normalize arr true =
      Sum.inr (renormalize arr (mean arr) (std arr), mean arr, std arr) ∧
      renormalize brr m s = brr.map (fun v => (v - m) / s) :=
  ⟨rfl, rfl⟩

/-- C10: with `neg=True` (the default), `max_rel_change` shifts the array by
`- min(arr) + 1`, after which every element is at least `1`, so `np.log10`
only ever sees values `≥ 1` (in the real-number model the result is then a
well-defined, finite real); the second conjunct records that the returned
value is computed from exactly that shifted array. -/
theorem max_rel_change_shift_ge_one (arr : List ℝ) (h : 2 ≤ arr.length) :
    (∀ v ∈ mrcShift arr, 1 ≤ v) ∧
      max_rel_change arr true =
        listMax (npdiff ((mrcShift arr).map (fun v => Real.logb 10 v))) -
          listMin (npdiff ((mrcShift arr).map (fun v => Real.logb 10 v))) := by
  constructor
  · intro v hv
    simp only [mrcShift, List.mem_map] at hv
    obtain ⟨x, hx, hxv⟩ := hv
    have hmin := listMin_le_mem hx
    rw [← hxv]
    linarith
  · rfl

section TwoBlockLemmas

theorem listMin_two_block {α : Type} [LinearOrderedField α] (k m : ℕ)
    (hk : k ≠ 0) {a b : α} (hab : a ≤ b) :
    listMin (List.replicate k a ++ List.replicate m b) = a := by
  apply listMin_eq_of
  · exact List.mem_append_left _ (List.mem_replicate.mpr ⟨hk, rfl⟩)
  · intro y hy
    rcases List.mem_append.mp hy with h | h
    · rw [List.eq_of_mem_replicate h]
    · rw [List.eq_of_mem_replicate h]; exact hab

theorem listMax_two_block {α : Type} [LinearOrderedField α] (k m : ℕ)
    (hm : m ≠ 0) {a b : α} (hab : a ≤ b) :
    listMax (List.replicate k a ++ List.replicate m b) = b := by
  apply listMax_eq_of
  · exact List.mem_append_right _ (List.mem_replicate.mpr ⟨hm, rfl⟩)
  · intro y hy
    rcases List.mem_append.mp hy with h | h
    · rw [List.eq_of_mem_replicate h]; exact hab
    · rw [List.eq_of_mem_replicate h]

theorem haarRaw_eq (α : Type) [LinearOrderedField α] (L : ℕ) :
    haarRaw α L =
      List.replicate (L / 2) (-1 : α) ++ List.replicate (L - L / 2) (1 : α) := by
  simp only [haarRaw, pySetFrom, List.length_replicate, List.take_replicate]
  rw [min_eq_left (Nat.div_le_self L 2)]

theorem zero_norm_two_block {α : Type} [LinearOrderedField α] (k m : ℕ)
    (hk : k ≠ 0) (hm : m ≠ 0) {a b : α} (hab : a < b) :
    zero_norm (List.replicate k a ++ List.replicate m b) =
      List.replicate k (-1 - ((m : α) - (k : α)) / ((k : α) + (m : α))) ++
        List.replicate m (1 - ((m : α) - (k : α)) / ((k : α) + (m : α))) := by
  have hmin := listMin_two_block k m hk hab.le
  have hmax := listMax_two_block k m hm hab.le
  have hba : b - a ≠ 0 := sub_ne_zero.mpr hab.ne'
  have hfa : 2 * (a - a) / (b - a) - 1 = (-1 : α) := by
    rw [sub_self, mul_zero, zero_div]; ring
  have hfb : 2 * (b - a) / (b - a) - 1 = (1 : α) := by
    rw [mul_div_assoc, div_self hba]; ring
  have hmapf : (List.replicate k a ++ List.replicate m b).map
      (fun v => 2 * (v - a) / (b - a) - 1) =
      List.replicate k (-1 : α) ++ List.replicate m (1 : α) := by
    rw [List.map_append, List.map_replicate, List.map_replicate, hfa, hfb]
  have hsum : (List.replicate k (-1 : α) ++ List.replicate m (1 : α)).sum
      = (m : α) - (k : α) := by
    rw [List.sum_append, List.sum_replicate, List.sum_replicate,
      nsmul_eq_mul, nsmul_eq_mul]
    ring
  have hlen : (((List.replicate k (-1 : α) ++ List.replicate m (1 : α)).length) : α)
      = (k : α) + (m : α) := by
    rw [List.length_append, List.length_replicate, List.length_replicate]
    push_cast
    ring
  simp only [zero_norm, hmin, hmax, hmapf, hsum, hlen]
  rw [List.map_append, List.map_replicate, List.map_replicate]

end TwoBlockLemmas

/-- C8: before normalization the haar kernel is `L // 2` entries of `-1`
followed by `L - L // 2` entries of `+1` (odd `L` puts the extra entry in the
positive half), and after zero-normalization the first `L // 2` entries are
all one common value that is strictly less than the common value of the
remaining entries. -/
theorem haar_spec (L : ℕ) (hL : 2 ≤ L) :
    haar ℚ L false =
      List.replicate (L / 2) (-1) ++ List.replicate (L - L / 2) 1 ∧
      ∃ u v : ℚ, u < v ∧
        haar ℚ L true = List.replicate (L / 2) u ++ List.replicate (L - L / 2) v := by
  have hk : L / 2 ≠ 0 := by omega
  have hm : L - L / 2 ≠ 0 := by omega
  constructor
  · exact haarRaw_eq ℚ L
  · refine ⟨-1 - (((L - L / 2 : ℕ) : ℚ) - ((L / 2 : ℕ) : ℚ)) /
        (((L / 2 : ℕ) : ℚ) + ((L - L / 2 : ℕ) : ℚ)),
      1 - (((L - L / 2 : ℕ) : ℚ) - ((L / 2 : ℕ) : ℚ)) /
        (((L / 2 : ℕ) : ℚ) + ((L - L / 2 : ℕ) : ℚ)), by linarith, ?_⟩
    show zero_norm (haarRaw ℚ L) = _
    rw [haarRaw_eq, zero_norm_two_block (L / 2) (L - L / 2) hk hm
      (show (-1 : ℚ) < 1 by norm_num)]

/-- Closed witness for `haar_spec` at `L = 3`. -/
theorem haar_spec_witness :
    2 ≤ 3 ∧
      (haar ℚ 3 false =
        List.replicate (3 / 2) (-1) ++ List.replicate (3 - 3 / 2) 1 ∧
        ∃ u v : ℚ, u < v ∧
          haar ℚ 3 true = List.replicate (3 / 2) u ++ List.replicate (3 - 3 / 2) v) :=
  ⟨by norm_num, haar_spec 3 (by norm_num)⟩

/-- C1 counterexample: the claim puts every zero-normalized kernel value in
`[-1 - eps, 1 + eps]`, but already the haar family at `L = 3` (default
`startpt = 1`, `endpt = 4`; haar ignores the shape parameter) produces the
value `-4/3` at index `0`, which is below `-1 - 1e-6` (and below `-1 - eps`
for every `eps ≤ 1/3`). -/
theorem haar_kernel_exceeds_unit_range :
    (generate_kernel KernelFamily.haar 3 0 true 1 4).getD 0 0 = -4 / 3 ∧
      (-4 / 3 : ℝ) < -1 - 1 / 1000000 := by
  constructor
  · have h3 : haarRaw ℝ 3 = List.replicate 1 (-1 : ℝ) ++ List.replicate 2 (1 : ℝ) := by
      rw [haarRaw_eq]
    have hz := zero_norm_two_block (α := ℝ) 1 2 (by norm_num) (by norm_num)
      (show (-1 : ℝ) < 1 by norm_num)
    show (zero_norm (haarRaw ℝ 3)).getD 0 0 = _
    rw [h3, hz]
    push_cast
    norm_num [List.replicate]
  · norm_num

/-- C1 amended: for every kernel family and valid input (`L ≥ 2`, positive
sample endpoints, `startpt ≠ endpt`) such that every array the evaluation
hands to `zero_norm` is non-constant (the code otherwise divides by zero and
propagates NaN), the kernel has length exactly `L`, and with `zn=True` its
values lie in `[-2, 2]` and sum to exactly `0` in exact arithmetic. -/
theorem generate_kernel_amended_spec (fam : KernelFamily) (L : ℕ) (p s e : ℝ)
    (zn : Bool) (hL : 2 ≤ L) (hs : 0 < s) (he : 0 < e) (hse : s ≠ e)
    (hzn : ∀ arr ∈ znInputs fam L p s e, listMin arr ≠ listMax arr) :
    (generate_kernel fam L p zn s e).length = L ∧
      (generate_kernel fam L p true s e).sum = 0 ∧
      ∀ v ∈ generate_kernel fam L p true s e, -2 ≤ v ∧ v ≤ 2 := by
  refine ⟨generate_kernel_length fam L p zn s e, ?_⟩
  have key : ∀ pre : List ℝ, pre.length = L →
      listMin pre ≠ listMax pre →
      (zero_norm pre).sum = 0 ∧ ∀ v ∈ zero_norm pre, -2 ≤ v ∧ v ≤ 2 := by
    intro pre hlen hne
    have hpre : pre ≠ [] := by
      intro hnil
      rw [hnil] at hlen
      simp at hlen
      omega
    exact ⟨zero_norm_sum pre hpre, fun v hv => zero_norm_mem_bounds hne hv⟩
  cases fam with
  | haar =>
      have heq : generate_kernel KernelFamily.haar L p true s e
          = zero_norm (haarRaw ℝ L) := rfl
      rw [heq]
      exact key (haarRaw ℝ L) (haarRaw_length ℝ L) (hzn _ (by simp [znInputs]))
  | power_law_zero_cusp =>
      have heq : generate_kernel KernelFamily.power_law_zero_cusp L p true s e
          = zero_norm (plzcRaw L p s e) := rfl
      rw [heq]
      exact key (plzcRaw L p s e) (plzcRaw_length L p s e) (hzn _ (by simp [znInputs]))
  | power_zero_cusp =>
      have heq : generate_kernel KernelFamily.power_zero_cusp L p true s e
          = zero_norm (pzcRaw L p s e) := rfl
      rw [heq]
      exact key (pzcRaw L p s e) (pzcRaw_length L p s e) (hzn _ (by simp [znInputs]))
  | exp_zero_cusp =>
      have heq : generate_kernel KernelFamily.exp_zero_cusp L p true s e
          = zero_norm (ezcRaw L p s e) := rfl
      rw [heq]
      exact key (ezcRaw L p s e) (ezcRaw_length L p s e) (hzn _ (by simp [znInputs]))
  | power_law_cusp =>
      have heq : generate_kernel KernelFamily.power_law_cusp L p true s e
          = zero_norm (addArr (power_law_zero_cusp L p true s e)
              (power_law_zero_cusp L p true s e).reverse) := rfl
      rw [heq]
      refine key _ ?_ (hzn _ (by simp [znInputs]))
      rw [addArr_length, power_law_zero_cusp_length, List.length_reverse,
        power_law_zero_cusp_length, min_self]
  | power_cusp =>
      have heq : generate_kernel KernelFamily.power_cusp L p true s e
          = zero_norm (addArr (power_zero_cusp L p true s e)
              (power_zero_cusp L p true s e).reverse) := rfl
      rw [heq]
      refine key _ ?_ (hzn _ (by simp [znInputs]))
      rw [addArr_length, power_zero_cusp_length, List.length_reverse,
        power_zero_cusp_length, min_self]
  | exp_cusp =>
      have heq : generate_kernel KernelFamily.exp_cusp L p true s e
          = zero_norm (addArr (exp_zero_cusp L p true s e)
              (exp_zero_cusp L p true s e).reverse) := rfl
      rw [heq]
      refine key _ ?_ (hzn _ (by simp [znInputs]))
      rw [addArr_length, exp_zero_cusp_length, List.length_reverse,
        exp_zero_cusp_length, min_self]
  | pitchfork =>
      have heq : generate_kernel KernelFamily.pitchfork L p true s e
          = zero_norm (addArr
              (addArr (power_zero_cusp L (2 * p) true s e).reverse
                (power_cusp L p true s e))
              (power_zero_cusp L (2 * p) true s e)) := rfl
      rw [heq]
      refine key _ ?_ (hzn _ (by simp [znInputs]))
      rw [addArr_length, addArr_length, List.length_reverse, power_zero_cusp_length,
        power_cusp_length]
      simp

/-- Closed witness for `generate_kernel_amended_spec`: the haar family at
`L = 3`, `startpt = 1`, `endpt = 4`. -/
theorem generate_kernel_amended_spec_witness :
    (2 ≤ 3 ∧ (0 : ℝ) < 1 ∧ (0 : ℝ) < 4 ∧ (1 : ℝ) ≠ 4 ∧
      ∀ arr ∈ znInputs KernelFamily.haar 3 0 1 4, listMin arr ≠ listMax arr) ∧
      ((generate_kernel KernelFamily.haar 3 0 true 1 4).length = 3 ∧
        (generate_kernel KernelFamily.haar 3 0 true 1 4).sum = 0 ∧
        ∀ v ∈ generate_kernel KernelFamily.haar 3 0 true 1 4, -2 ≤ v ∧ v ≤ 2) := by
  have hzn : ∀ arr ∈ znInputs KernelFamily.haar 3 0 1 4,
      listMin arr ≠ listMax arr := by
    intro arr harr
    simp only [znInputs, List.mem_singleton] at harr
    subst harr
    have h3 : haarRaw ℝ 3 = List.replicate 1 (-1 : ℝ) ++ List.replicate 2 (1 : ℝ) := by
      rw [haarRaw_eq]
    rw [h3, listMin_two_block 1 2 (by norm_num) (by norm_num : (-1 : ℝ) ≤ 1),
      listMax_two_block 1 2 (by norm_num) (by norm_num : (-1 : ℝ) ≤ 1)]
    norm_num
  exact ⟨⟨by norm_num, by norm_num, by norm_num, by norm_num, hzn⟩,
    generate_kernel_amended_spec KernelFamily.haar 3 0 1 4 true (by norm_num)
      (by norm_num) (by norm_num) (by norm_num) hzn⟩

section RowLemmas

theorem exists_ne_mean {r : List ℝ} {x y : ℝ} (hx : x ∈ r) (hy : y ∈ r)
    (hxy : x ≠ y) : ∃ z ∈ r, z ≠ mean r := by
  by_contra hc
  push_neg at hc
  exact hxy ((hc x hx).trans (hc y hy).symm)

theorem std_ne_zero {r : List ℝ} {x y : ℝ} (hx : x ∈ r) (hy : y ∈ r)
    (hxy : x ≠ y) : std r ≠ 0 := by
  obtain ⟨z, hz, hzm⟩ := exists_ne_mean hx hy hxy
  have hzsub : z - mean r ≠ 0 := sub_ne_zero.mpr hzm
  have hzpos : 0 < (z - mean r) ^ 2 :=
    lt_of_le_of_ne (sq_nonneg _) (Ne.symm (pow_ne_zero 2 hzsub))
  have hnonneg : ∀ w ∈ r.map (fun v => (v - mean r) ^ 2), 0 ≤ w := by
    intro w hw
    simp only [List.mem_map] at hw
    obtain ⟨u, _, hu⟩ := hw
    rw [← hu]
    exact sq_nonneg _
  have hmem : (z - mean r) ^ 2 ∈ r.map (fun v => (v - mean r) ^ 2) :=
    List.mem_map_of_mem _ hz
  have hsum : 0 < (r.map (fun v => (v - mean r) ^ 2)).sum :=
    lt_of_lt_of_le hzpos (List.single_le_sum hnonneg _ hmem)
  have hlen : 0 < ((r.map (fun v => (v - mean r) ^ 2)).length : ℝ) := by
    rw [List.length_map]
    exact_mod_cast List.length_pos.mpr (List.ne_nil_of_mem hz)
  have hmean : 0 < mean (r.map (fun v => (v - mean r) ^ 2)) := div_pos hsum hlen
  exact (Real.sqrt_pos.mpr hmean).ne'

theorem row_roundtrip_aux {r : List ℝ} (hs : std r ≠ 0) :
    (r.map (fun v => (v - mean r) / std r)).map (fun v => v * std r + mean r) = r := by
  rw [List.map_map]
  have hid : ∀ x ∈ r,
      ((fun v => v * std r + mean r) ∘ (fun v => (v - mean r) / std r)) x = id x := by
    intro x hx
    simp only [Function.comp_apply, id_eq]
    field_simp
  rw [List.map_congr_left hid, List.map_id]

end RowLemmas

/-- C6: for a 2-d array with no constant row, `row_unnormalize` applied to the
full result of `row_normalize` reconstructs the original array exactly (in
exact arithmetic, hence within any floating tolerance). -/
theorem row_normalize_roundtrip (X : List (List ℝ))
    (h : ∀ r ∈ X, ∃ x ∈ r, ∃ y ∈ r, x ≠ y) :
    row_unnormalize (row_normalize X).1 (row_normalize X).2.1
      (row_normalize X).2.2 = X := by
  induction X with
  | nil => rfl
  | cons r t ih =>
    obtain ⟨x, hx, y, hy, hxy⟩ := h r (List.mem_cons_self r t)
    have hs : std r ≠ 0 := std_ne_zero hx hy hxy
    have ht := ih (fun q hq => h q (List.mem_cons_of_mem r hq))
    simp only [row_normalize, row_unnormalize, List.map_cons, List.zip_cons_cons,
      List.zipWith_cons_cons] at ht ⊢
    rw [row_roundtrip_aux hs, ht]

/-- Closed witness for `row_normalize_roundtrip` at `X = [[0, 2]]`. -/
theorem row_normalize_roundtrip_witness :
    (∀ r ∈ [[(0 : ℝ), 2]], ∃ x ∈ r, ∃ y ∈ r, x ≠ y) ∧
      row_unnormalize (row_normalize [[(0 : ℝ), 2]]).1
        (row_normalize [[(0 : ℝ), 2]]).2.1 (row_normalize [[(0 : ℝ), 2]]).2.2 =
        [[(0 : ℝ), 2]] := by
  have hh : ∀ r ∈ [[(0 : ℝ), 2]], ∃ x ∈ r, ∃ y ∈ r, x ≠ y := by
    intro r hr
    simp only [List.mem_singleton] at hr
    subst hr
    exact ⟨0, by simp, 2, by simp, by norm_num⟩
  exact ⟨hh, row_normalize_roundtrip [[(0 : ℝ), 2]] hh⟩

/-- Closed witness for `max_rel_change_shift_ge_one` at the array `[3, -2]`. -/
theorem max_rel_change_shift_ge_one_witness :
    2 ≤ ([3, -2] : List ℝ).length ∧
      ((∀ v ∈ mrcShift [(3 : ℝ), -2], 1 ≤ v) ∧
        max_rel_change [(3 : ℝ), -2] true =
          listMax (npdiff ((mrcShift [(3 : ℝ), -2]).map (fun v => Real.logb 10 v))) -
            listMin (npdiff ((mrcShift [(3 : ℝ), -2]).map (fun v => Real.logb 10 v)))) :=
  ⟨by simp, max_rel_change_shift_ge_one [3, -2] (by simp)⟩

end DiscreteShocklets
